import Mathlib

set_option maxRecDepth 8192

/-!
Verification of `core/vm/analysis_legacy.go` (go-ethereum): the legacy EVM
bytecode classifier `codeBitmap`, which marks every byte offset of a contract
as either an opcode position or immediate data of a preceding PUSH
instruction.

Modelling conventions:
* Go `[]byte` slices become `List Nat` whose entries are byte values (< 256);
  every write stores a value reduced `% 256`, exactly as the `byte(...)` casts
  in the source truncate.
* A Go slice write `bits[i] = v` panics when `i` is out of bounds; the model
  returns `none` in that case (`orAt` / `storeAt`), so a fully successful run
  (`some _`) certifies that no write ever indexed outside the backing array.
* The scan loop `for pc := 0; pc < len(code);` is embedded with an explicit
  iteration budget (`fuel`).  The budget models the a-priori bound on the
  number of loop iterations: the entry point passes `len(code)`, and the
  theorems prove this budget always suffices (each iteration advances `pc` by
  at least one).  Exhausting the budget yields `none`, so `some _` results
  also certify termination within `len(code)` iterations.
* The inner `for ; numbits >= 16; numbits -= 16` loops are embedded the same
  way, with budget `numbits` (each pass removes 16, so the budget suffices).
-/

/-- EVM opcode PUSH1 (first push opcode), value 0x60.  The source compares
`int8(op) < int8(PUSH1)`; the comment there notes the `> PUSH32` check would
be vacuous under `int8`, which pins `PUSH32 = 0x7f`. -/
def PUSH1 : Nat := 0x60

/-- EVM opcode PUSH32 (last push opcode), value 0x7f. -/
def PUSH32 : Nat := 0x7f

/-- Go's `int8(b)` reinterpretation of a byte value `b < 256` as a signed
8-bit integer. -/
def int8 (b : Nat) : Int := if b < 128 then (b : Int) else (b : Int) - 256

/-- Mask constant `set2BitsMask = uint16(0b11)` from the source. -/
def set2BitsMask : Nat := 0b11

/-- Mask constant `set3BitsMask = uint16(0b111)` from the source. -/
def set3BitsMask : Nat := 0b111

/-- Mask constant `set4BitsMask = uint16(0b1111)` from the source. -/
def set4BitsMask : Nat := 0b1111

/-- Mask constant `set5BitsMask = uint16(0b11111)` from the source. -/
def set5BitsMask : Nat := 0b11111

/-- Mask constant `set6BitsMask = uint16(0b111111)` from the source. -/
def set6BitsMask : Nat := 0b111111

/-- Mask constant `set7BitsMask = uint16(0b1111111)` from the source. -/
def set7BitsMask : Nat := 0b1111111

/-- Go `bits[i] |= v` on a `[]byte`: bounds-checked read-modify-write.
Out of bounds means a Go panic, modelled as `none`. -/
def orAt (bits : List Nat) (i v : Nat) : Option (List Nat) :=
  if i < bits.length then some (bits.set i ((bits.getD i 0 ||| v) % 256)) else none

/-- Go `bits[i] = v` on a `[]byte`: bounds-checked plain store (truncating to a
byte).  Out of bounds means a Go panic, modelled as `none`. -/
def storeAt (bits : List Nat) (i v : Nat) : Option (List Nat) :=
  if i < bits.length then some (bits.set i (v % 256)) else none

/-- `BitVec.set1` from the source: `bits[pos/8] |= 1 << (pos % 8)`. -/
def set1 (bits : List Nat) (pos : Nat) : Option (List Nat) :=
  orAt bits (pos / 8) (1 <<< (pos % 8))

/-- `BitVec.setN` from the source:
`a := flag << (pos % 8); bits[pos/8] |= byte(a);
 if b := byte(a >> 8); b != 0 { bits[pos/8+1] = b }`.
`flag` is a `uint16`, so the shift is reduced `% 65536`. -/
def setN (bits : List Nat) (flag pos : Nat) : Option (List Nat) :=
  let a := (flag <<< (pos % 8)) % 65536
  match orAt bits (pos / 8) (a % 256) with
  | none => none
  | some bits1 =>
    let b := (a >>> 8) % 256
    if b ≠ 0 then storeAt bits1 (pos / 8 + 1) b else some bits1

/-- `BitVec.set8` from the source:
`a := byte(0xFF << (pos % 8)); bits[pos/8] |= a; bits[pos/8+1] = ^a`. -/
def set8 (bits : List Nat) (pos : Nat) : Option (List Nat) :=
  let a := (255 <<< (pos % 8)) % 256
  match orAt bits (pos / 8) a with
  | none => none
  | some bits1 => storeAt bits1 (pos / 8 + 1) (a ^^^ 255)

/-- `BitVec.set16` from the source:
`a := byte(0xFF << (pos % 8)); bits[pos/8] |= a; bits[pos/8+1] = 0xFF;
 bits[pos/8+2] = ^a`. -/
def set16 (bits : List Nat) (pos : Nat) : Option (List Nat) :=
  let a := (255 <<< (pos % 8)) % 256
  match orAt bits (pos / 8) a with
  | none => none
  | some bits1 =>
    match storeAt bits1 (pos / 8 + 1) 255 with
    | none => none
    | some bits2 => storeAt bits2 (pos / 8 + 2) (a ^^^ 255)

/-- `BitVec.codeSegment` from the source:
`(((*bits)[pos/8] >> (pos % 8)) & 1) == 0`.  True means the position is an
instruction start (code), false means it is push data.  (Queried only at
`pos < len(code)`, where the byte index is inside the padded storage; the
model reads with default 0 like the zero padding.) -/
def codeSegment (bits : List Nat) (pos : Nat) : Bool :=
  ((bits.getD (pos / 8) 0 >>> (pos % 8)) &&& 1) == 0

/-- Value of the bit of the classification vector at offset `j` (true = data).
This is the direct `Nat.testBit` reading of the packed byte array; the
source's `codeSegment` is its boolean negation (proved below). -/
def dataBit (bits : List Nat) (j : Nat) : Bool :=
  Nat.testBit (bits.getD (j / 8) 0) (j % 8)

/-- Inner loop `for ; numbits >= 16; numbits -= 16 { bits.set16(pc); pc += 16 }`
of `codeBitmapInternal`.  `fuel` is the iteration budget (callers pass
`numbits`, which suffices since each pass removes 16). -/
def pushLoop16 : Nat → List Nat → Nat → Nat → Option (List Nat × Nat × Nat)
  | 0, bits, pos, numbits =>
    if 16 ≤ numbits then none else some (bits, pos, numbits)
  | fuel + 1, bits, pos, numbits =>
    if 16 ≤ numbits then
      match set16 bits pos with
      | none => none
      | some bits1 => pushLoop16 fuel bits1 (pos + 16) (numbits - 16)
    else some (bits, pos, numbits)

/-- Inner loop `for ; numbits >= 8; numbits -= 8 { bits.set8(pc); pc += 8 }`
of `codeBitmapInternal`, with an iteration budget like `pushLoop16`. -/
def pushLoop8 : Nat → List Nat → Nat → Nat → Option (List Nat × Nat × Nat)
  | 0, bits, pos, numbits =>
    if 8 ≤ numbits then none else some (bits, pos, numbits)
  | fuel + 1, bits, pos, numbits =>
    if 8 ≤ numbits then
      match set8 bits pos with
      | none => none
      | some bits1 => pushLoop8 fuel bits1 (pos + 8) (numbits - 8)
    else some (bits, pos, numbits)

/-- The trailing `switch numbits { case 1: ... case 7: ... }` of
`codeBitmapInternal`: mark the remaining 1..7 bits with the fixed masks and
advance the cursor by the remainder.  A remainder of 0 (or any value with no
case) falls through unchanged, as a Go `switch` with no default does. -/
def pushRemainder (bits : List Nat) (pos numbits : Nat) : Option (List Nat × Nat) :=
  match numbits with
  | 1 => (set1 bits pos).map (fun b => (b, pos + 1))
  | 2 => (setN bits set2BitsMask pos).map (fun b => (b, pos + 2))
  | 3 => (setN bits set3BitsMask pos).map (fun b => (b, pos + 3))
  | 4 => (setN bits set4BitsMask pos).map (fun b => (b, pos + 4))
  | 5 => (setN bits set5BitsMask pos).map (fun b => (b, pos + 5))
  | 6 => (setN bits set6BitsMask pos).map (fun b => (b, pos + 6))
  | 7 => (setN bits set7BitsMask pos).map (fun b => (b, pos + 7))
  | _ => some (bits, pos)

/-- Marking phase of one loop iteration of `codeBitmapInternal` for a push of
`numbits` data bits starting at cursor `pos`: the source's
`if numbits >= 8 { ...set16 loop... ...set8 loop... }` fast path followed by
the remainder switch.  Returns the updated bit vector and the advanced
cursor. -/
def pushMark (bits : List Nat) (pos numbits : Nat) : Option (List Nat × Nat) :=
  if 8 ≤ numbits then
    match pushLoop16 numbits bits pos numbits with
    | none => none
    | some (bits1, pos1, numbits1) =>
      match pushLoop8 numbits1 bits1 pos1 numbits1 with
      | none => none
      | some (bits2, pos2, numbits2) => pushRemainder bits2 pos2 numbits2
  else pushRemainder bits pos numbits

/-- One iteration of the scan loop of `codeBitmapInternal`, starting at `pc`:
read `op := code[pc]`, advance past the opcode, skip (`continue`) unless
`int8(op) >= int8(PUSH1)`, otherwise mark the `numbits = op - PUSH1 + 1` data
bits via `pushMark`.  Returns the updated bit vector and the next scan
position. -/
def scanStep (code bits : List Nat) (pc : Nat) : Option (List Nat × Nat) :=
  let op := code.getD pc 0
  if int8 op < int8 PUSH1 then some (bits, pc + 1)
  else pushMark bits (pc + 1) (op - PUSH1 + 1)

/-- The scan loop `for pc := uint64(0); pc < uint64(len(code));` of
`codeBitmapInternal`, with an iteration budget `fuel` (the entry point passes
`len(code)`, proved sufficient below since every iteration advances `pc`). -/
def codeBitmapLoop (code : List Nat) : Nat → List Nat → Nat → Option (List Nat)
  | 0, bits, pc => if pc < code.length then none else some bits
  | fuel + 1, bits, pc =>
    if pc < code.length then
      match scanStep code bits pc with
      | none => none
      | some (bits1, pc1) => codeBitmapLoop code fuel bits1 pc1
    else some bits

/-- `codeBitmapInternal(code, bits)` from the source: run the scan over `code`
into the caller-provided bit vector `bits`. -/
def codeBitmapInternal (code bits : List Nat) : Option (List Nat) :=
  codeBitmapLoop code code.length bits 0

/-- `codeBitmap(code)` from the source: allocate `len(code)/8+1+4` zeroed
bytes (the 4 extra bytes absorb the writes of a PUSH32 near the end of the
code) and run `codeBitmapInternal`. -/
def codeBitmap (code : List Nat) : Option (List Nat) :=
  codeBitmapInternal code (List.replicate (code.length / 8 + 1 + 4) 0)

/-! ### Reference (naive) classification

The specification describes the classifier operationally: scan forward; at a
push opcode of width `w` mark the `w` offsets `pc+1 .. pc+w` as data one at a
time and jump over them.  `naiveScan` is that one-bit-at-a-time scan over a
plain boolean list of length `len(code)`, and `refIsData` is the
corresponding per-offset predicate used to state and prove the claims. -/

/-- Mark `w` offsets `pos, pos+1, ..., pos+w-1` as data, one at a time
(`List.set` past the end of the list is a no-op, so offsets beyond
`len(code)` are simply dropped by the naive reference). -/
def naiveMarkRange : List Bool → Nat → Nat → List Bool
  | marked, _, 0 => marked
  | marked, pos, w + 1 => naiveMarkRange (marked.set pos true) (pos + 1) w

/-- Naive reference scan: at each scan position, if the opcode is in the push
family (`PUSH1 ≤ op ≤ PUSH32`) mark its `w = op - PUSH1 + 1` data offsets one
bit at a time and advance by `w + 1`, otherwise advance by 1.  `fuel` is the
iteration budget; exhausting it stops early (the entry point passes
`len(code)`, which always suffices). -/
def naiveScanF (code : List Nat) : Nat → List Bool → Nat → List Bool
  | 0, marked, _ => marked
  | fuel + 1, marked, pc =>
    if pc < code.length then
      let op := code.getD pc 0
      if PUSH1 ≤ op ∧ op ≤ PUSH32 then
        let w := op - PUSH1 + 1
        naiveScanF code fuel (naiveMarkRange marked (pc + 1) w) (pc + w + 1)
      else naiveScanF code fuel marked (pc + 1)
    else marked

/-- Naive reference classification of a whole code buffer: one boolean per
offset below `len(code)`, true = data. -/
def naiveScan (code : List Nat) : List Bool :=
  naiveScanF code code.length (List.replicate code.length false) 0

/-- Data-offset predicate of the reference scan started at `pc`: offset `i`
lies in the immediate-data span of some push instruction reached by the scan.
Structured exactly like `naiveScanF` (same branch condition, same cursor
advance, same fuel discipline). -/
def refIsDataF (code : List Nat) : Nat → Nat → Nat → Bool
  | 0, _, _ => false
  | fuel + 1, pc, i =>
    if pc < code.length then
      let op := code.getD pc 0
      if PUSH1 ≤ op ∧ op ≤ PUSH32 then
        let w := op - PUSH1 + 1
        if pc + 1 ≤ i ∧ i ≤ pc + w then true else refIsDataF code fuel (pc + w + 1) i
      else refIsDataF code fuel (pc + 1) i
    else false

/-- Offset `i` is a push-data offset of `code` according to the reference
scan from position 0. -/
def refIsData (code : List Nat) (i : Nat) : Bool :=
  refIsDataF code code.length 0 i

/-- Scan-visited positions: offset `i` is evaluated as "the current opcode"
by the reference scan started at `pc`.  Same recursion structure as
`refIsDataF`. -/
def visitedPosF (code : List Nat) : Nat → Nat → Nat → Bool
  | 0, _, _ => false
  | fuel + 1, pc, i =>
    if pc < code.length then
      (i == pc) ||
        (let op := code.getD pc 0
         if PUSH1 ≤ op ∧ op ≤ PUSH32 then
           visitedPosF code fuel (pc + (op - PUSH1 + 1) + 1) i
         else visitedPosF code fuel (pc + 1) i)
    else false

/-- Offset `i` is visited as a scan position by the scan of `code` from 0. -/
def visitedPos (code : List Nat) (i : Nat) : Bool :=
  visitedPosF code code.length 0 i

/-- All entries of a byte list are byte values (reducible, so bounded
instances such as decidability see through it). -/
abbrev byteList (l : List Nat) : Prop := ∀ b ∈ l, b < 256

/-- All classification bits at offsets `≥ p` are still unset. -/
def zeroFrom (bits : List Nat) (p : Nat) : Prop :=
  ∀ j, p ≤ j → dataBit bits j = false

/-! ### Basic bridges -/

/-- The source's `codeSegment` test is the boolean negation of the packed
data bit. -/
theorem codeSegment_eq_not_dataBit (bits : List Nat) (pos : Nat) :
    codeSegment bits pos = !dataBit bits pos := by
  unfold codeSegment dataBit Nat.testBit
  rw [Nat.land_comm]
  cases h : (bits.getD (pos / 8) 0 >>> (pos % 8)) &&& 1 == 0 <;> simp_all [bne]

/-- The push-family test of the source (`int8(op) < int8(PUSH1)` means "not a
push") agrees, on byte values, with the plain range test
`PUSH1 ≤ op ∧ op ≤ PUSH32`; in particular every value above `PUSH32`
(numerically `0x80 .. 0xFF`) is rejected because it is negative as `int8`. -/
theorem int8_lt_push1_iff : ∀ op < 256,
    (int8 op < int8 PUSH1 ↔ ¬(PUSH1 ≤ op ∧ op ≤ PUSH32)) := by decide

/-- A freshly allocated zeroed array has no data bit set. -/
theorem dataBit_replicate_zero (n j : Nat) :
    dataBit (List.replicate n 0) j = false := by
  unfold dataBit
  have : (List.replicate n (0 : Nat)).getD (j / 8) 0 = 0 := by
    simp [List.getD_eq_getElem?_getD, List.getElem?_replicate]
    split <;> rfl
  simp [this]

theorem getD_set_self (l : List Nat) (i v : Nat) (h : i < l.length) :
    (l.set i v).getD i 0 = v := by
  simp [List.getD_eq_getElem?_getD, List.getElem?_set_self h]

theorem getD_set_ne (l : List Nat) {i m : Nat} (v : Nat) (h : m ≠ i) :
    (l.set i v).getD m 0 = l.getD m 0 := by
  simp [List.getD_eq_getElem?_getD, List.getElem?_set_ne (Ne.symm h)]

/-! ### Mask facts (finite checks over a byte) -/

theorem testBit_one_shift : ∀ s < 8, ∀ k < 8,
    Nat.testBit (1 <<< s) k = decide (k = s) := by decide

theorem testBit_ff_shift : ∀ s < 8, ∀ k < 8,
    Nat.testBit ((255 <<< s) % 256) k = decide (s ≤ k) := by decide

theorem testBit_ff_shift_compl : ∀ s < 8, ∀ k < 8,
    Nat.testBit (((255 <<< s) % 256) ^^^ 255) k = decide (k < s) := by decide

theorem testBit_255 : ∀ k < 8, Nat.testBit 255 k = true := by decide

theorem testBit_maskN_low : ∀ n < 8, 2 ≤ n → ∀ s < 8, ∀ k < 8,
    Nat.testBit ((((2 ^ n - 1) <<< s) % 65536) % 256) k
      = decide (s ≤ k ∧ k < s + n) := by decide

theorem testBit_maskN_high : ∀ n < 8, 2 ≤ n → ∀ s < 8, ∀ k < 8,
    Nat.testBit (((((2 ^ n - 1) <<< s) % 65536) >>> 8) % 256) k
      = decide (k + 8 < s + n) := by decide

theorem maskN_high_ne_zero : ∀ n < 8, 2 ≤ n → ∀ s < 8,
    (((((2 ^ n - 1) <<< s) % 65536) >>> 8) % 256 ≠ 0 ↔ 8 < s + n) := by decide

/-! ### Single-write characterizations -/

theorem orAt_eq_some (bits : List Nat) (i v : Nat) (h : i < bits.length) :
    orAt bits i v = some (bits.set i ((bits.getD i 0 ||| v) % 256)) := by
  simp [orAt, h]

theorem storeAt_eq_some (bits : List Nat) (i v : Nat) (h : i < bits.length) :
    storeAt bits i v = some (bits.set i (v % 256)) := by
  simp [storeAt, h]

theorem orAt_length {bits bits' : List Nat} {i v : Nat}
    (h : orAt bits i v = some bits') : bits'.length = bits.length := by
  unfold orAt at h
  split at h
  · cases h; simp
  · cases h

theorem storeAt_length {bits bits' : List Nat} {i v : Nat}
    (h : storeAt bits i v = some bits') : bits'.length = bits.length := by
  unfold storeAt at h
  split at h
  · cases h; simp
  · cases h

theorem orAt_byteList {bits bits' : List Nat} {i v : Nat}
    (h : orAt bits i v = some bits') (hb : byteList bits) : byteList bits' := by
  unfold orAt at h
  split at h
  · cases h
    intro b hbmem
    rcases List.mem_or_eq_of_mem_set hbmem with hm | rfl
    · exact hb _ hm
    · exact Nat.mod_lt _ (by norm_num)
  · cases h

theorem storeAt_byteList {bits bits' : List Nat} {i v : Nat}
    (h : storeAt bits i v = some bits') (hb : byteList bits) : byteList bits' := by
  unfold storeAt at h
  split at h
  · cases h
    intro b hbmem
    rcases List.mem_or_eq_of_mem_set hbmem with hm | rfl
    · exact hb _ hm
    · exact Nat.mod_lt _ (by norm_num)
  · cases h

theorem dataBit_orAt {bits bits' : List Nat} {i v : Nat}
    (h : orAt bits i v = some bits') (j : Nat) :
    dataBit bits' j
      = (dataBit bits j || (decide (j / 8 = i) && Nat.testBit v (j % 8))) := by
  unfold orAt at h
  split at h
  case isTrue hi =>
    cases h
    unfold dataBit
    by_cases hj : j / 8 = i
    · subst hj
      rw [getD_set_self _ _ _ hi]
      have h256 : (256 : Nat) = 2 ^ 8 := by norm_num
      rw [h256, Nat.testBit_mod_two_pow, Nat.testBit_lor]
      have : j % 8 < 8 := Nat.mod_lt _ (by norm_num)
      simp [this]
    · rw [getD_set_ne _ _ hj]
      simp [hj]
  case isFalse => cases h

theorem dataBit_storeAt {bits bits' : List Nat} {i v : Nat}
    (h : storeAt bits i v = some bits') (j : Nat) :
    dataBit bits' j
      = (if j / 8 = i then Nat.testBit v (j % 8) else dataBit bits j) := by
  unfold storeAt at h
  split at h
  case isTrue hi =>
    cases h
    unfold dataBit
    by_cases hj : j / 8 = i
    · subst hj
      rw [getD_set_self _ _ _ hi]
      have h256 : (256 : Nat) = 2 ^ 8 := by norm_num
      rw [h256, Nat.testBit_mod_two_pow]
      have : j % 8 < 8 := Nat.mod_lt _ (by norm_num)
      simp [this]
    · rw [getD_set_ne _ _ hj]
      simp [hj]
  case isFalse => cases h

/-! ### Marking-routine characterizations

Each lemma states: the routine succeeds (all writes in bounds), preserves
length and byte-boundedness, and — provided every bit from the write position
on is still unset, which is the scan invariant — the result is exactly the
old vector with the intended contiguous bit range additionally set.  The
plain (non-OR) trailing stores of `setN`/`set8`/`set16` write zeros only at
offsets at or beyond the end of the marked range, where the invariant says
the bits were zero anyway. -/

theorem set1_mark (bits : List Nat) (pos : Nat) (hlen : pos / 8 < bits.length) :
    ∃ bits', set1 bits pos = some bits' ∧ bits'.length = bits.length ∧
      (byteList bits → byteList bits') ∧
      ∀ j, dataBit bits' j = (dataBit bits j || decide (j = pos)) := by
  have h1 := orAt_eq_some bits (pos / 8) (1 <<< (pos % 8)) hlen
  refine ⟨_, h1, by simp, fun hb => orAt_byteList h1 hb, fun j => ?_⟩
  rw [dataBit_orAt h1 j]
  have hs : pos % 8 < 8 := Nat.mod_lt _ (by norm_num)
  have hk : j % 8 < 8 := Nat.mod_lt _ (by norm_num)
  rw [testBit_one_shift _ hs _ hk]
  congr 1
  by_cases hc : j = pos
  · subst hc; simp
  · have hd : ¬(j / 8 = pos / 8) ∨ ¬(j % 8 = pos % 8) := by omega
    rcases hd with h | h <;> simp [h, hc]

theorem set8_mark (bits : List Nat) (pos : Nat)
    (hlen : pos / 8 + 1 < bits.length) (hz : zeroFrom bits pos) :
    ∃ bits', set8 bits pos = some bits' ∧ bits'.length = bits.length ∧
      (byteList bits → byteList bits') ∧
      ∀ j, dataBit bits' j = (dataBit bits j || decide (pos ≤ j ∧ j < pos + 8)) := by
  have hq : pos / 8 < bits.length := by omega
  have h1 := orAt_eq_some bits (pos / 8) ((255 <<< (pos % 8)) % 256) hq
  set bits1 := bits.set (pos / 8) ((bits.getD (pos / 8) 0 ||| (255 <<< (pos % 8)) % 256) % 256)
    with hb1
  have hlen1 : bits1.length = bits.length := by simp [hb1]
  have hq1 : pos / 8 + 1 < bits1.length := by omega
  have h2 := storeAt_eq_some bits1 (pos / 8 + 1)
    (((255 <<< (pos % 8)) % 256) ^^^ 255) hq1
  set bits2 := bits1.set (pos / 8 + 1) ((((255 <<< (pos % 8)) % 256) ^^^ 255) % 256) with hb2
  refine ⟨bits2, ?_, ?_, ?_, fun j => ?_⟩
  · show set8 bits pos = some bits2
    simp only [set8, h1]
    exact h2
  · simp [hb2, hlen1]
  · exact fun hb => storeAt_byteList h2 (orAt_byteList h1 hb)
  · rw [dataBit_storeAt h2 j, dataBit_orAt h1 j]
    have hs : pos % 8 < 8 := Nat.mod_lt _ (by norm_num)
    have hk : j % 8 < 8 := Nat.mod_lt _ (by norm_num)
    have hA := testBit_ff_shift (pos % 8) hs (j % 8) hk
    have hB := testBit_ff_shift_compl (pos % 8) hs (j % 8) hk
    by_cases hj1 : j / 8 = pos / 8 + 1
    · rw [if_pos hj1, hB]
      by_cases hlt : j % 8 < pos % 8
      · simp [hlt, (by omega : pos ≤ j ∧ j < pos + 8)]
      · have hzj : dataBit bits j = false := hz j (by omega)
        simp [hlt, hzj]
        omega
    · rw [if_neg hj1]
      by_cases hj0 : j / 8 = pos / 8
      · rw [hA]
        by_cases hm : pos % 8 ≤ j % 8
        · simp [hj0, hm, (by omega : pos ≤ j ∧ j < pos + 8)]
        · simp [hj0, hm]
          intro h h'
          omega
      · simp [hj0]
        intro h h'
        omega

theorem set16_mark (bits : List Nat) (pos : Nat)
    (hlen : pos / 8 + 2 < bits.length) (hz : zeroFrom bits pos) :
    ∃ bits', set16 bits pos = some bits' ∧ bits'.length = bits.length ∧
      (byteList bits → byteList bits') ∧
      ∀ j, dataBit bits' j = (dataBit bits j || decide (pos ≤ j ∧ j < pos + 16)) := by
  have hq : pos / 8 < bits.length := by omega
  have h1 := orAt_eq_some bits (pos / 8) ((255 <<< (pos % 8)) % 256) hq
  set bits1 := bits.set (pos / 8) ((bits.getD (pos / 8) 0 ||| (255 <<< (pos % 8)) % 256) % 256)
    with hb1
  have hlen1 : bits1.length = bits.length := by simp [hb1]
  have hq1 : pos / 8 + 1 < bits1.length := by omega
  have h2 := storeAt_eq_some bits1 (pos / 8 + 1) 255 hq1
  set bits2 := bits1.set (pos / 8 + 1) (255 % 256) with hb2
  have hlen2 : bits2.length = bits1.length := by simp [hb2]
  have hq2 : pos / 8 + 2 < bits2.length := by omega
  have h3 := storeAt_eq_some bits2 (pos / 8 + 2)
    (((255 <<< (pos % 8)) % 256) ^^^ 255) hq2
  set bits3 := bits2.set (pos / 8 + 2) ((((255 <<< (pos % 8)) % 256) ^^^ 255) % 256) with hb3
  refine ⟨bits3, ?_, ?_, ?_, fun j => ?_⟩
  · show set16 bits pos = some bits3
    simp only [set16, h1, h2]
    exact h3
  · simp [hb3, hlen2, hlen1]
  · exact fun hb => storeAt_byteList h3 (storeAt_byteList h2 (orAt_byteList h1 hb))
  · rw [dataBit_storeAt h3 j, dataBit_storeAt h2 j, dataBit_orAt h1 j]
    have hs : pos % 8 < 8 := Nat.mod_lt _ (by norm_num)
    have hk : j % 8 < 8 := Nat.mod_lt _ (by norm_num)
    have hA := testBit_ff_shift (pos % 8) hs (j % 8) hk
    have hB := testBit_ff_shift_compl (pos % 8) hs (j % 8) hk
    have hC := testBit_255 (j % 8) hk
    by_cases hj2 : j / 8 = pos / 8 + 2
    · rw [if_pos hj2, hB]
      by_cases hlt : j % 8 < pos % 8
      · simp [hlt, (by omega : pos ≤ j ∧ j < pos + 16)]
      · have hzj : dataBit bits j = false := hz j (by omega)
        simp [hlt, hzj]
        omega
    · rw [if_neg hj2]
      by_cases hj1 : j / 8 = pos / 8 + 1
      · rw [if_pos hj1, hC]
        simp [(by omega : pos ≤ j ∧ j < pos + 16)]
      · rw [if_neg hj1]
        by_cases hj0 : j / 8 = pos / 8
        · rw [hA]
          by_cases hm : pos % 8 ≤ j % 8
          · simp [hj0, hm, (by omega : pos ≤ j ∧ j < pos + 16)]
          · simp [hj0, hm]
            intro h h'
            omega
        · simp [hj0]
          intro h h'
          omega

theorem setN_mark (bits : List Nat) (pos n : Nat) (hn2 : 2 ≤ n) (hn7 : n ≤ 7)
    (hq : pos / 8 < bits.length)
    (hq1 : 8 < pos % 8 + n → pos / 8 + 1 < bits.length)
    (hz : zeroFrom bits pos) :
    ∃ bits', setN bits (2 ^ n - 1) pos = some bits' ∧ bits'.length = bits.length ∧
      (byteList bits → byteList bits') ∧
      ∀ j, dataBit bits' j = (dataBit bits j || decide (pos ≤ j ∧ j < pos + n)) := by
  have hs : pos % 8 < 8 := Nat.mod_lt _ (by norm_num)
  have hn8 : n < 8 := by omega
  have h1 := orAt_eq_some bits (pos / 8)
    ((((2 ^ n - 1) <<< (pos % 8)) % 65536) % 256) hq
  set bits1 := bits.set (pos / 8)
    ((bits.getD (pos / 8) 0 ||| (((2 ^ n - 1) <<< (pos % 8)) % 65536) % 256) % 256) with hb1
  have hlen1 : bits1.length = bits.length := by simp [hb1]
  have hiff := maskN_high_ne_zero n hn8 hn2 (pos % 8) hs
  by_cases hspill : 8 < pos % 8 + n
  · have hbne : ((((2 ^ n - 1) <<< (pos % 8)) % 65536) >>> 8) % 256 ≠ 0 := hiff.mpr hspill
    have hq1' : pos / 8 + 1 < bits1.length := by
      rw [hlen1]; exact hq1 hspill
    have h2 := storeAt_eq_some bits1 (pos / 8 + 1)
      (((((2 ^ n - 1) <<< (pos % 8)) % 65536) >>> 8) % 256) hq1'
    set bits2 := bits1.set (pos / 8 + 1)
      ((((((2 ^ n - 1) <<< (pos % 8)) % 65536) >>> 8) % 256) % 256) with hb2
    refine ⟨bits2, ?_, ?_, ?_, fun j => ?_⟩
    · show setN bits (2 ^ n - 1) pos = some bits2
      simp only [setN, h1, if_pos hbne]
      exact h2
    · simp [hb2, hlen1]
    · exact fun hb => storeAt_byteList h2 (orAt_byteList h1 hb)
    · rw [dataBit_storeAt h2 j, dataBit_orAt h1 j]
      have hk : j % 8 < 8 := Nat.mod_lt _ (by norm_num)
      have hA := testBit_maskN_low n hn8 hn2 (pos % 8) hs (j % 8) hk
      have hB := testBit_maskN_high n hn8 hn2 (pos % 8) hs (j % 8) hk
      by_cases hj1 : j / 8 = pos / 8 + 1
      · rw [if_pos hj1, hB]
        by_cases hlt : j % 8 + 8 < pos % 8 + n
        · simp [hlt, (by omega : pos ≤ j ∧ j < pos + n)]
        · have hzj : dataBit bits j = false := hz j (by omega)
          simp [hlt, hzj]
          omega
      · rw [if_neg hj1]
        by_cases hj0 : j / 8 = pos / 8
        · rw [hA]
          by_cases hm : pos % 8 ≤ j % 8 ∧ j % 8 < pos % 8 + n
          · simp [hj0, hm, (by omega : pos ≤ j ∧ j < pos + n)]
          · simp [hj0, hm]
            intro h h'
            omega
        · simp [hj0]
          intro h h'
          omega
  · have hbz : ¬((((2 ^ n - 1) <<< (pos % 8)) % 65536) >>> 8) % 256 ≠ 0 := by
      intro hne
      exact hspill (hiff.mp hne)
    refine ⟨bits1, ?_, hlen1, fun hb => orAt_byteList h1 hb, fun j => ?_⟩
    · show setN bits (2 ^ n - 1) pos = some bits1
      simp only [setN, h1, if_neg hbz]
    · rw [dataBit_orAt h1 j]
      have hk : j % 8 < 8 := Nat.mod_lt _ (by norm_num)
      have hA := testBit_maskN_low n hn8 hn2 (pos % 8) hs (j % 8) hk
      by_cases hj0 : j / 8 = pos / 8
      · rw [hA]
        by_cases hm : pos % 8 ≤ j % 8 ∧ j % 8 < pos % 8 + n
        · simp [hj0, hm, (by omega : pos ≤ j ∧ j < pos + n)]
        · simp [hj0, hm]
          intro h h'
          omega
      · simp [hj0]
        intro h h'
        omega

/-! ### Composing contiguous marks -/

/-- Two consecutive contiguous marks compose to one contiguous mark. -/
theorem markStep_trans {bits1 bits2 bits3 : List Nat} {a b c : Nat}
    (hab : a ≤ b) (hbc : b ≤ c)
    (h12 : ∀ j, dataBit bits2 j = (dataBit bits1 j || decide (a ≤ j ∧ j < b)))
    (h23 : ∀ j, dataBit bits3 j = (dataBit bits2 j || decide (b ≤ j ∧ j < c))) :
    ∀ j, dataBit bits3 j = (dataBit bits1 j || decide (a ≤ j ∧ j < c)) := by
  intro j
  rw [h23 j, h12 j, Bool.or_assoc]
  congr 1
  by_cases h1 : a ≤ j ∧ j < b
  · simp [h1, (by omega : a ≤ j ∧ j < c)]
  · by_cases h2 : b ≤ j ∧ j < c
    · simp [h1, h2, (by omega : a ≤ j ∧ j < c)]
    · simp [h1, h2]
      omega

/-- A contiguous mark `[a, b)` on a vector that was all-zero from `a` on
leaves a vector that is all-zero from `b` on. -/
theorem zeroFrom_of_mark {bits bits' : List Nat} {a b : Nat} (hab : a ≤ b)
    (hz : zeroFrom bits a)
    (hc : ∀ j, dataBit bits' j = (dataBit bits j || decide (a ≤ j ∧ j < b))) :
    zeroFrom bits' b := by
  intro j hj
  rw [hc j, hz j (by omega)]
  have : ¬(a ≤ j ∧ j < b) := by omega
  simp [this]

/-! ### The segmented marking loops -/

theorem pushLoop16_mark : ∀ (fuel : Nat) (bits : List Nat) (pos numbits : Nat),
    numbits ≤ fuel → (pos + numbits) / 8 < bits.length → zeroFrom bits pos →
    ∃ bits', pushLoop16 fuel bits pos numbits
        = some (bits', pos + (numbits - numbits % 16), numbits % 16) ∧
      bits'.length = bits.length ∧ (byteList bits → byteList bits') ∧
      ∀ j, dataBit bits' j
        = (dataBit bits j || decide (pos ≤ j ∧ j < pos + (numbits - numbits % 16))) := by
  intro fuel
  induction fuel with
  | zero =>
    intro bits pos numbits hf hlen hz
    have hnb : numbits = 0 := by omega
    subst hnb
    refine ⟨bits, by simp [pushLoop16], rfl, fun hb => hb, fun j => ?_⟩
    have hnr : ¬(pos ≤ j ∧ j < pos + (0 - 0 % 16)) := by omega
    simp [hnr]
  | succ fuel ih =>
    intro bits pos numbits hf hlen hz
    by_cases h16 : 16 ≤ numbits
    · have hl2 : pos / 8 + 2 < bits.length := by omega
      obtain ⟨bits1, e1, hlen1, hbl1, hc1⟩ := set16_mark bits pos hl2 hz
      have hz1 : zeroFrom bits1 (pos + 16) := zeroFrom_of_mark (by omega) hz hc1
      have hlen1' : (pos + 16 + (numbits - 16)) / 8 < bits1.length := by
        rw [hlen1, (by omega : pos + 16 + (numbits - 16) = pos + numbits)]
        exact hlen
      obtain ⟨bits2, e2, hlen2, hbl2, hc2⟩ :=
        ih bits1 (pos + 16) (numbits - 16) (by omega) hlen1' hz1
      have ea : pos + 16 + (numbits - 16 - (numbits - 16) % 16)
          = pos + (numbits - numbits % 16) := by omega
      have eb : (numbits - 16) % 16 = numbits % 16 := by omega
      have hcc := markStep_trans (by omega : pos ≤ pos + 16)
        (by omega : pos + 16 ≤ pos + 16 + (numbits - 16 - (numbits - 16) % 16)) hc1 hc2
      refine ⟨bits2, ?_, by omega, fun hb => hbl2 (hbl1 hb), fun j => ?_⟩
      · simp only [pushLoop16, if_pos h16, e1]
        rw [e2, ea, eb]
      · rw [hcc j, ea]
    · have ea : pos + (numbits - numbits % 16) = pos := by omega
      have eb : numbits % 16 = numbits := by omega
      refine ⟨bits, ?_, rfl, fun hb => hb, fun j => ?_⟩
      · simp only [pushLoop16, if_neg h16]
        rw [ea, eb]
      · have hnr : ¬(pos ≤ j ∧ j < pos + (numbits - numbits % 16)) := by omega
        simp [hnr]

theorem pushLoop8_mark : ∀ (fuel : Nat) (bits : List Nat) (pos numbits : Nat),
    numbits ≤ fuel → (pos + numbits) / 8 < bits.length → zeroFrom bits pos →
    ∃ bits', pushLoop8 fuel bits pos numbits
        = some (bits', pos + (numbits - numbits % 8), numbits % 8) ∧
      bits'.length = bits.length ∧ (byteList bits → byteList bits') ∧
      ∀ j, dataBit bits' j
        = (dataBit bits j || decide (pos ≤ j ∧ j < pos + (numbits - numbits % 8))) := by
  intro fuel
  induction fuel with
  | zero =>
    intro bits pos numbits hf hlen hz
    have hnb : numbits = 0 := by omega
    subst hnb
    refine ⟨bits, by simp [pushLoop8], rfl, fun hb => hb, fun j => ?_⟩
    have hnr : ¬(pos ≤ j ∧ j < pos + (0 - 0 % 8)) := by omega
    simp [hnr]
  | succ fuel ih =>
    intro bits pos numbits hf hlen hz
    by_cases h8 : 8 ≤ numbits
    · have hl1 : pos / 8 + 1 < bits.length := by omega
      obtain ⟨bits1, e1, hlen1, hbl1, hc1⟩ := set8_mark bits pos hl1 hz
      have hz1 : zeroFrom bits1 (pos + 8) := zeroFrom_of_mark (by omega) hz hc1
      have hlen1' : (pos + 8 + (numbits - 8)) / 8 < bits1.length := by
        rw [hlen1, (by omega : pos + 8 + (numbits - 8) = pos + numbits)]
        exact hlen
      obtain ⟨bits2, e2, hlen2, hbl2, hc2⟩ :=
        ih bits1 (pos + 8) (numbits - 8) (by omega) hlen1' hz1
      have ea : pos + 8 + (numbits - 8 - (numbits - 8) % 8)
          = pos + (numbits - numbits % 8) := by omega
      have eb : (numbits - 8) % 8 = numbits % 8 := by omega
      have hcc := markStep_trans (by omega : pos ≤ pos + 8)
        (by omega : pos + 8 ≤ pos + 8 + (numbits - 8 - (numbits - 8) % 8)) hc1 hc2
      refine ⟨bits2, ?_, by omega, fun hb => hbl2 (hbl1 hb), fun j => ?_⟩
      · simp only [pushLoop8, if_pos h8, e1]
        rw [e2, ea, eb]
      · rw [hcc j, ea]
    · have ea : pos + (numbits - numbits % 8) = pos := by omega
      have eb : numbits % 8 = numbits := by omega
      refine ⟨bits, ?_, rfl, fun hb => hb, fun j => ?_⟩
      · simp only [pushLoop8, if_neg h8]
        rw [ea, eb]
      · have hnr : ¬(pos ≤ j ∧ j < pos + (numbits - numbits % 8)) := by omega
        simp [hnr]

theorem pushRemainder_mark (bits : List Nat) (pos numbits : Nat)
    (h7 : numbits ≤ 7)
    (hlen : (pos + numbits) / 8 < bits.length)
    (hz : zeroFrom bits pos) :
    ∃ bits', pushRemainder bits pos numbits = some (bits', pos + numbits) ∧
      bits'.length = bits.length ∧ (byteList bits → byteList bits') ∧
      ∀ j, dataBit bits' j = (dataBit bits j || decide (pos ≤ j ∧ j < pos + numbits)) := by
  interval_cases numbits
  · refine ⟨bits, by simp [pushRemainder], rfl, fun hb => hb, fun j => ?_⟩
    have hnr : ¬(pos ≤ j ∧ j < pos + 0) := by omega
    simp [hnr]
  · obtain ⟨bits', e, hl, hbl, hc⟩ := set1_mark bits pos (by omega)
    refine ⟨bits', by simp [pushRemainder, e], hl, hbl, fun j => ?_⟩
    rw [hc j]
    congr 1
    rw [decide_eq_decide]
    omega
  · obtain ⟨bits', e, hl, hbl, hc⟩ := setN_mark bits pos 2 (by norm_num) (by norm_num)
      (by omega) (fun hsp => by omega) hz
    rw [(by decide : (2:Nat) ^ 2 - 1 = set2BitsMask)] at e
    exact ⟨bits', by simp [pushRemainder, e], hl, hbl, hc⟩
  · obtain ⟨bits', e, hl, hbl, hc⟩ := setN_mark bits pos 3 (by norm_num) (by norm_num)
      (by omega) (fun hsp => by omega) hz
    rw [(by decide : (2:Nat) ^ 3 - 1 = set3BitsMask)] at e
    exact ⟨bits', by simp [pushRemainder, e], hl, hbl, hc⟩
  · obtain ⟨bits', e, hl, hbl, hc⟩ := setN_mark bits pos 4 (by norm_num) (by norm_num)
      (by omega) (fun hsp => by omega) hz
    rw [(by decide : (2:Nat) ^ 4 - 1 = set4BitsMask)] at e
    exact ⟨bits', by simp [pushRemainder, e], hl, hbl, hc⟩
  · obtain ⟨bits', e, hl, hbl, hc⟩ := setN_mark bits pos 5 (by norm_num) (by norm_num)
      (by omega) (fun hsp => by omega) hz
    rw [(by decide : (2:Nat) ^ 5 - 1 = set5BitsMask)] at e
    exact ⟨bits', by simp [pushRemainder, e], hl, hbl, hc⟩
  · obtain ⟨bits', e, hl, hbl, hc⟩ := setN_mark bits pos 6 (by norm_num) (by norm_num)
      (by omega) (fun hsp => by omega) hz
    rw [(by decide : (2:Nat) ^ 6 - 1 = set6BitsMask)] at e
    exact ⟨bits', by simp [pushRemainder, e], hl, hbl, hc⟩
  · obtain ⟨bits', e, hl, hbl, hc⟩ := setN_mark bits pos 7 (by norm_num) (by norm_num)
      (by omega) (fun hsp => by omega) hz
    rw [(by decide : (2:Nat) ^ 7 - 1 = set7BitsMask)] at e
    exact ⟨bits', by simp [pushRemainder, e], hl, hbl, hc⟩

/-- Full marking phase for a push of `numbits ≤ 32` data bits starting at
cursor `pos`: succeeds, advances the cursor by exactly `numbits`, and sets
exactly the bits `[pos, pos + numbits)` (given they were still unset). -/
theorem pushMark_spec (bits : List Nat) (pos numbits : Nat) (h32 : numbits ≤ 32)
    (hlen : (pos + numbits) / 8 < bits.length) (hz : zeroFrom bits pos) :
    ∃ bits', pushMark bits pos numbits = some (bits', pos + numbits) ∧
      bits'.length = bits.length ∧ (byteList bits → byteList bits') ∧
      ∀ j, dataBit bits' j = (dataBit bits j || decide (pos ≤ j ∧ j < pos + numbits)) := by
  by_cases h8 : 8 ≤ numbits
  · obtain ⟨bits1, e1, hlen1, hbl1, hc1⟩ :=
      pushLoop16_mark numbits bits pos numbits le_rfl hlen hz
    have hz1 : zeroFrom bits1 (pos + (numbits - numbits % 16)) :=
      zeroFrom_of_mark (by omega) hz hc1
    have hb2 : (pos + (numbits - numbits % 16) + numbits % 16) / 8 < bits1.length := by
      rw [hlen1, (by omega : pos + (numbits - numbits % 16) + numbits % 16 = pos + numbits)]
      exact hlen
    obtain ⟨bits2, e2, hlen2, hbl2, hc2⟩ :=
      pushLoop8_mark (numbits % 16) bits1 (pos + (numbits - numbits % 16)) (numbits % 16)
        le_rfl hb2 hz1
    have hz2 : zeroFrom bits2
        (pos + (numbits - numbits % 16) + (numbits % 16 - numbits % 16 % 8)) :=
      zeroFrom_of_mark (by omega) hz1 hc2
    have hb3 : (pos + (numbits - numbits % 16) + (numbits % 16 - numbits % 16 % 8)
        + numbits % 16 % 8) / 8 < bits2.length := by
      rw [hlen2, hlen1,
        (by omega : pos + (numbits - numbits % 16) + (numbits % 16 - numbits % 16 % 8)
          + numbits % 16 % 8 = pos + numbits)]
      exact hlen
    obtain ⟨bits3, e3, hlen3, hbl3, hc3⟩ :=
      pushRemainder_mark bits2
        (pos + (numbits - numbits % 16) + (numbits % 16 - numbits % 16 % 8))
        (numbits % 16 % 8) (by omega) hb3 hz2
    have hcc1 := markStep_trans (by omega : pos ≤ pos + (numbits - numbits % 16))
      (by omega : pos + (numbits - numbits % 16)
        ≤ pos + (numbits - numbits % 16) + (numbits % 16 - numbits % 16 % 8)) hc1 hc2
    have hcc2 := markStep_trans
      (by omega : pos ≤ pos + (numbits - numbits % 16) + (numbits % 16 - numbits % 16 % 8))
      (by omega : pos + (numbits - numbits % 16) + (numbits % 16 - numbits % 16 % 8)
        ≤ pos + (numbits - numbits % 16) + (numbits % 16 - numbits % 16 % 8)
          + numbits % 16 % 8) hcc1 hc3
    refine ⟨bits3, ?_, by omega, fun hb => hbl3 (hbl2 (hbl1 hb)), fun j => ?_⟩
    · simp only [pushMark]
      rw [if_pos h8]
      simp only [e1, e2, e3]
      rw [(by omega : pos + (numbits - numbits % 16) + (numbits % 16 - numbits % 16 % 8)
        + numbits % 16 % 8 = pos + numbits)]
    · rw [hcc2 j,
        (by omega : pos + (numbits - numbits % 16) + (numbits % 16 - numbits % 16 % 8)
          + numbits % 16 % 8 = pos + numbits)]
  · obtain ⟨bits', e, hl, hbl, hc⟩ := pushRemainder_mark bits pos numbits (by omega) hlen hz
    refine ⟨bits', ?_, hl, hbl, hc⟩
    simp only [pushMark]
    rw [if_neg h8]
    exact e

/-- A non-push byte (by the source's signed `int8` test): the iteration keeps
the bit vector unchanged and advances the cursor by exactly 1. -/
theorem scanStep_nonpush (code bits : List Nat) (pc : Nat)
    (hnp : int8 (code.getD pc 0) < int8 PUSH1) :
    scanStep code bits pc = some (bits, pc + 1) := by
  simp only [scanStep]
  rw [if_pos hnp]

/-- A push byte: the iteration succeeds, marks exactly the
`w = op - PUSH1 + 1` bits `[pc+1, pc+1+w)` and advances the cursor to
`pc + 1 + w`. -/
theorem scanStep_push (code bits : List Nat) (pc : Nat)
    (hop1 : PUSH1 ≤ code.getD pc 0) (hop2 : code.getD pc 0 ≤ PUSH32)
    (hpc : pc < code.length)
    (hlen : bits.length = code.length / 8 + 1 + 4)
    (hz : zeroFrom bits (pc + 1)) :
    ∃ bits', scanStep code bits pc
        = some (bits', pc + 1 + (code.getD pc 0 - PUSH1 + 1)) ∧
      bits'.length = bits.length ∧ (byteList bits → byteList bits') ∧
      ∀ j, dataBit bits' j = (dataBit bits j
        || decide (pc + 1 ≤ j ∧ j < pc + 1 + (code.getD pc 0 - PUSH1 + 1))) := by
  have h96 : (96 : Nat) ≤ code.getD pc 0 := hop1
  have h127 : code.getD pc 0 ≤ 127 := hop2
  have hnp : ¬(int8 (code.getD pc 0) < int8 PUSH1) := by
    intro h
    exact ((int8_lt_push1_iff (code.getD pc 0) (by omega)).mp h) ⟨hop1, hop2⟩
  have hw32 : code.getD pc 0 - PUSH1 + 1 ≤ 32 := by
    show code.getD pc 0 - 96 + 1 ≤ 32
    omega
  have hb : (pc + 1 + (code.getD pc 0 - PUSH1 + 1)) / 8 < bits.length := by
    have he : pc + 1 + (code.getD pc 0 - PUSH1 + 1)
        = pc + 1 + (code.getD pc 0 - 96 + 1) := rfl
    rw [he, hlen]
    omega
  obtain ⟨bits', e, hl, hbl, hc⟩ :=
    pushMark_spec bits (pc + 1) (code.getD pc 0 - PUSH1 + 1) hw32 hb hz
  refine ⟨bits', ?_, hl, hbl, hc⟩
  simp only [scanStep]
  rw [if_neg hnp]
  exact e

/-! ### Cursor monotonicity (termination bookkeeping) -/

theorem pushLoop16_pos_le : ∀ (fuel : Nat) (bits : List Nat) (pos numbits : Nat)
    (bits' : List Nat) (pos' rem : Nat),
    pushLoop16 fuel bits pos numbits = some (bits', pos', rem) → pos ≤ pos' := by
  intro fuel
  induction fuel with
  | zero =>
    intro bits pos numbits bits' pos' rem h
    simp only [pushLoop16] at h
    split at h
    · cases h
    · cases h
      exact le_rfl
  | succ fuel ih =>
    intro bits pos numbits bits' pos' rem h
    simp only [pushLoop16] at h
    split at h
    · cases hs : set16 bits pos with
      | none => rw [hs] at h; cases h
      | some b1 =>
        rw [hs] at h
        have := ih b1 (pos + 16) (numbits - 16) bits' pos' rem h
        omega
    · cases h
      exact le_rfl

theorem pushLoop8_pos_le : ∀ (fuel : Nat) (bits : List Nat) (pos numbits : Nat)
    (bits' : List Nat) (pos' rem : Nat),
    pushLoop8 fuel bits pos numbits = some (bits', pos', rem) → pos ≤ pos' := by
  intro fuel
  induction fuel with
  | zero =>
    intro bits pos numbits bits' pos' rem h
    simp only [pushLoop8] at h
    split at h
    · cases h
    · cases h
      exact le_rfl
  | succ fuel ih =>
    intro bits pos numbits bits' pos' rem h
    simp only [pushLoop8] at h
    split at h
    · cases hs : set8 bits pos with
      | none => rw [hs] at h; cases h
      | some b1 =>
        rw [hs] at h
        have := ih b1 (pos + 8) (numbits - 8) bits' pos' rem h
        omega
    · cases h
      exact le_rfl

theorem pushRemainder_pos_le (bits : List Nat) (pos numbits : Nat)
    (bits' : List Nat) (pos' : Nat)
    (h : pushRemainder bits pos numbits = some (bits', pos')) : pos ≤ pos' := by
  rcases numbits with _|_|_|_|_|_|_|_|n
  · simp only [pushRemainder] at h
    cases h
    exact le_rfl
  · simp only [pushRemainder] at h
    cases hs : set1 bits pos <;> rw [hs] at h
    · cases h
    · simp only [Option.map_some'] at h
      cases h
      omega
  · simp only [pushRemainder] at h
    cases hs : setN bits set2BitsMask pos <;> rw [hs] at h
    · cases h
    · simp only [Option.map_some'] at h
      cases h
      omega
  · simp only [pushRemainder] at h
    cases hs : setN bits set3BitsMask pos <;> rw [hs] at h
    · cases h
    · simp only [Option.map_some'] at h
      cases h
      omega
  · simp only [pushRemainder] at h
    cases hs : setN bits set4BitsMask pos <;> rw [hs] at h
    · cases h
    · simp only [Option.map_some'] at h
      cases h
      omega
  · simp only [pushRemainder] at h
    cases hs : setN bits set5BitsMask pos <;> rw [hs] at h
    · cases h
    · simp only [Option.map_some'] at h
      cases h
      omega
  · simp only [pushRemainder] at h
    cases hs : setN bits set6BitsMask pos <;> rw [hs] at h
    · cases h
    · simp only [Option.map_some'] at h
      cases h
      omega
  · simp only [pushRemainder] at h
    cases hs : setN bits set7BitsMask pos <;> rw [hs] at h
    · cases h
    · simp only [Option.map_some'] at h
      cases h
      omega
  · simp only [pushRemainder] at h
    cases h
    exact le_rfl

theorem pushMark_pos_le (bits : List Nat) (pos numbits : Nat)
    (bits' : List Nat) (pos' : Nat)
    (h : pushMark bits pos numbits = some (bits', pos')) : pos ≤ pos' := by
  simp only [pushMark] at h
  split at h
  · cases h16 : pushLoop16 numbits bits pos numbits with
    | none =>
      rw [h16] at h
      cases h
    | some val =>
      rcases val with ⟨b1, p1, r1⟩
      simp only [h16] at h
      cases h8 : pushLoop8 r1 b1 p1 r1 with
      | none =>
        rw [h8] at h
        cases h
      | some val2 =>
        rcases val2 with ⟨b2, p2, r2⟩
        simp only [h8] at h
        have m1 := pushLoop16_pos_le _ _ _ _ _ _ _ h16
        have m2 := pushLoop8_pos_le _ _ _ _ _ _ _ h8
        have m3 := pushRemainder_pos_le _ _ _ _ _ h
        omega
  · exact pushRemainder_pos_le _ _ _ _ _ h

/-- Every loop iteration strictly advances the scan cursor. -/
theorem scanStep_pc_lt (code bits : List Nat) (pc : Nat) (bits' : List Nat) (pc' : Nat)
    (h : scanStep code bits pc = some (bits', pc')) : pc < pc' := by
  simp only [scanStep] at h
  split at h
  · cases h
    omega
  · have := pushMark_pos_le _ _ _ _ _ h
    omega

/-! ### The scan loop invariant -/

/-- Main loop invariant: started at `pc` on a vector whose bits from `pc` on
are unset, the loop (with iteration budget at least the number of remaining
positions) succeeds and its result is the input vector with exactly the
reference data offsets (scanned from `pc`) additionally marked. -/
theorem codeBitmapLoop_spec : ∀ (fuel : Nat) (code bits : List Nat) (pc : Nat),
    byteList code →
    bits.length = code.length / 8 + 1 + 4 →
    byteList bits →
    zeroFrom bits pc →
    code.length - pc ≤ fuel →
    ∃ final, codeBitmapLoop code fuel bits pc = some final ∧
      final.length = bits.length ∧ byteList final ∧
      ∀ j, dataBit final j = (dataBit bits j || refIsDataF code fuel pc j) := by
  intro fuel
  induction fuel with
  | zero =>
    intro code bits pc hcode hlen hbl hz hf
    have hpc : ¬(pc < code.length) := by omega
    refine ⟨bits, ?_, rfl, hbl, fun j => ?_⟩
    · simp [codeBitmapLoop, hpc]
    · simp [refIsDataF, hpc]
  | succ fuel ih =>
    intro code bits pc hcode hlen hbl hz hf
    by_cases hpc : pc < code.length
    · have hopeq : code.getD pc 0 = code[pc] := by
        rw [List.getD_eq_getElem?_getD, List.getElem?_eq_getElem hpc]
        rfl
      have hop256 : code.getD pc 0 < 256 := by
        rw [hopeq]
        exact hcode _ (List.getElem_mem hpc)
      by_cases hpush : PUSH1 ≤ code.getD pc 0 ∧ code.getD pc 0 ≤ PUSH32
      · have hz1 : zeroFrom bits (pc + 1) := fun j hj => hz j (by omega)
        obtain ⟨bits1, e1, hlen1, hbl1, hc1⟩ :=
          scanStep_push code bits pc hpush.1 hpush.2 hpc hlen hz1
        have hz2 : zeroFrom bits1 (pc + 1 + (code.getD pc 0 - PUSH1 + 1)) :=
          zeroFrom_of_mark (by omega) hz1 hc1
        obtain ⟨final, e2, hlen2, hbl2, hc2⟩ :=
          ih code bits1 (pc + 1 + (code.getD pc 0 - PUSH1 + 1)) hcode
            (hlen1.trans hlen) (hbl1 hbl) hz2 (by omega)
        refine ⟨final, ?_, by omega, hbl2, fun j => ?_⟩
        · simp only [codeBitmapLoop]
          rw [if_pos hpc]
          simp only [e1]
          exact e2
        · rw [hc2 j, hc1 j]
          rw [(by omega : pc + 1 + (code.getD pc 0 - PUSH1 + 1)
            = pc + (code.getD pc 0 - PUSH1 + 1) + 1)]
          simp only [refIsDataF]
          rw [if_pos hpc, if_pos hpush]
          by_cases hr : pc + 1 ≤ j ∧ j ≤ pc + (code.getD pc 0 - PUSH1 + 1)
          · rw [if_pos hr]
            have hdec : decide (pc + 1 ≤ j ∧ j < pc + (code.getD pc 0 - PUSH1 + 1) + 1)
                = true := by
              rw [decide_eq_true_eq]
              omega
            rw [hdec]
            simp
          · rw [if_neg hr]
            have hdec : decide (pc + 1 ≤ j ∧ j < pc + (code.getD pc 0 - PUSH1 + 1) + 1)
                = false := by
              rw [decide_eq_false_iff_not]
              omega
            rw [hdec]
            simp
      · have hnp : int8 (code.getD pc 0) < int8 PUSH1 :=
          (int8_lt_push1_iff _ hop256).mpr hpush
        have e1 := scanStep_nonpush code bits pc hnp
        have hz1 : zeroFrom bits (pc + 1) := fun j hj => hz j (by omega)
        obtain ⟨final, e2, hlen2, hbl2, hc2⟩ :=
          ih code bits (pc + 1) hcode hlen hbl hz1 (by omega)
        refine ⟨final, ?_, hlen2, hbl2, fun j => ?_⟩
        · simp only [codeBitmapLoop]
          rw [if_pos hpc]
          simp only [e1]
          exact e2
        · rw [hc2 j]
          simp only [refIsDataF]
          rw [if_pos hpc, if_neg hpush]
    · refine ⟨bits, ?_, rfl, hbl, fun j => ?_⟩
      · simp [codeBitmapLoop, hpc]
      · simp [refIsDataF, hpc]

/-- Top-level correctness of `codeBitmap`: it succeeds on every byte-valued
code (no out-of-bounds write, within `len(code)` loop iterations), allocates
`len(code)/8 + 1 + 4` bytes, and its bits are exactly the reference data
offsets. -/
theorem codeBitmap_spec (code : List Nat) (hcode : byteList code) :
    ∃ final, codeBitmap code = some final ∧
      final.length = code.length / 8 + 1 + 4 ∧ byteList final ∧
      ∀ j, dataBit final j = refIsData code j := by
  have hlen : (List.replicate (code.length / 8 + 1 + 4) (0 : Nat)).length
      = code.length / 8 + 1 + 4 := by simp
  have hbl : byteList (List.replicate (code.length / 8 + 1 + 4) 0) := by
    intro b hb
    rw [List.eq_of_mem_replicate hb]
    norm_num
  have hz : zeroFrom (List.replicate (code.length / 8 + 1 + 4) 0) 0 :=
    fun j _ => dataBit_replicate_zero _ j
  obtain ⟨final, e, hl, hb, hc⟩ :=
    codeBitmapLoop_spec code.length code (List.replicate (code.length / 8 + 1 + 4) 0) 0
      hcode hlen hbl hz (by omega)
  refine ⟨final, e, hl.trans hlen, hb, fun j => ?_⟩
  rw [hc j, dataBit_replicate_zero]
  simp [refIsData]

/-- Two byte-valued packed bit vectors with the same length and the same bits
are equal byte lists. -/
theorem bitmap_ext (b1 b2 : List Nat) (h1 : byteList b1) (h2 : byteList b2)
    (hl : b1.length = b2.length) (h : ∀ j, dataBit b1 j = dataBit b2 j) :
    b1 = b2 := by
  apply List.ext_getElem hl
  intro i hi1 hi2
  apply Nat.eq_of_testBit_eq
  intro k
  by_cases hk : k < 8
  · have hj := h (8 * i + k)
    unfold dataBit at hj
    rw [(by omega : (8 * i + k) / 8 = i), (by omega : (8 * i + k) % 8 = k)] at hj
    have g1 : b1.getD i 0 = b1[i] := by
      rw [List.getD_eq_getElem?_getD, List.getElem?_eq_getElem hi1]
      rfl
    have g2 : b2.getD i 0 = b2[i] := by
      rw [List.getD_eq_getElem?_getD, List.getElem?_eq_getElem hi2]
      rfl
    rw [g1, g2] at hj
    exact hj
  · have hp : (256 : Nat) ≤ 2 ^ k := by
      calc (256 : Nat) = 2 ^ 8 := by norm_num
      _ ≤ 2 ^ k := Nat.pow_le_pow_right (by norm_num) (by omega)
    rw [Nat.testBit_eq_false_of_lt (lt_of_lt_of_le (h1 _ (List.getElem_mem hi1)) hp),
      Nat.testBit_eq_false_of_lt (lt_of_lt_of_le (h2 _ (List.getElem_mem hi2)) hp)]

/-! ### Properties of the reference scan -/

/-- The reference scan started at `pc` never marks an offset below `pc`. -/
theorem refIsDataF_lt (code : List Nat) : ∀ (fuel pc i : Nat), i < pc →
    refIsDataF code fuel pc i = false := by
  intro fuel
  induction fuel with
  | zero => intro pc i h; simp [refIsDataF]
  | succ fuel ih =>
    intro pc i h
    simp only [refIsDataF]
    by_cases hpc : pc < code.length
    · rw [if_pos hpc]
      by_cases hpush : PUSH1 ≤ code.getD pc 0 ∧ code.getD pc 0 ≤ PUSH32
      · rw [if_pos hpush,
          if_neg (by omega : ¬(pc + 1 ≤ i ∧ i ≤ pc + (code.getD pc 0 - PUSH1 + 1)))]
        exact ih (pc + (code.getD pc 0 - PUSH1 + 1) + 1) i (by omega)
      · rw [if_neg hpush]
        exact ih (pc + 1) i (by omega)
    · rw [if_neg hpc]

/-- The reference scan started at `pc` never marks `pc` itself. -/
theorem refIsDataF_self (code : List Nat) (fuel pc : Nat) :
    refIsDataF code fuel pc pc = false := by
  cases fuel with
  | zero => simp [refIsDataF]
  | succ fuel =>
    simp only [refIsDataF]
    by_cases hpc : pc < code.length
    · rw [if_pos hpc]
      by_cases hpush : PUSH1 ≤ code.getD pc 0 ∧ code.getD pc 0 ≤ PUSH32
      · rw [if_pos hpush,
          if_neg (by omega : ¬(pc + 1 ≤ pc ∧ pc ≤ pc + (code.getD pc 0 - PUSH1 + 1)))]
        exact refIsDataF_lt code fuel _ pc (by omega)
      · rw [if_neg hpush]
        exact refIsDataF_lt code fuel _ pc (by omega)
    · rw [if_neg hpc]

/-- Visited positions lie at or after the scan start. -/
theorem visitedPosF_le (code : List Nat) : ∀ (fuel pc p : Nat),
    visitedPosF code fuel pc p = true → pc ≤ p := by
  intro fuel
  induction fuel with
  | zero => intro pc p h; simp [visitedPosF] at h
  | succ fuel ih =>
    intro pc p h
    simp only [visitedPosF] at h
    by_cases hpc : pc < code.length
    · rw [if_pos hpc] at h
      by_cases hpush : PUSH1 ≤ code.getD pc 0 ∧ code.getD pc 0 ≤ PUSH32
      · rw [if_pos hpush] at h
        rcases Bool.or_eq_true_iff.mp h with h1 | h2
        · have : p = pc := by simpa using h1
          omega
        · have := ih _ _ h2
          omega
      · rw [if_neg hpush] at h
        rcases Bool.or_eq_true_iff.mp h with h1 | h2
        · have : p = pc := by simpa using h1
          omega
        · have := ih _ _ h2
          omega
    · rw [if_neg hpc] at h
      cases h

/-- Visited positions are inside the code. -/
theorem visitedPosF_lt_length (code : List Nat) : ∀ (fuel pc p : Nat),
    visitedPosF code fuel pc p = true → p < code.length := by
  intro fuel
  induction fuel with
  | zero => intro pc p h; simp [visitedPosF] at h
  | succ fuel ih =>
    intro pc p h
    simp only [visitedPosF] at h
    by_cases hpc : pc < code.length
    · rw [if_pos hpc] at h
      by_cases hpush : PUSH1 ≤ code.getD pc 0 ∧ code.getD pc 0 ≤ PUSH32
      · rw [if_pos hpush] at h
        rcases Bool.or_eq_true_iff.mp h with h1 | h2
        · have : p = pc := by simpa using h1
          omega
        · exact ih _ _ h2
      · rw [if_neg hpush] at h
        rcases Bool.or_eq_true_iff.mp h with h1 | h2
        · have : p = pc := by simpa using h1
          omega
        · exact ih _ _ h2
    · rw [if_neg hpc] at h
      cases h

/-- A position inside the code visits itself (with any positive budget). -/
theorem visitedPosF_self (code : List Nat) (fuel q : Nat) (hq : q < code.length)
    (hf : 1 ≤ fuel) : visitedPosF code fuel q q = true := by
  cases fuel with
  | zero => omega
  | succ fuel =>
    simp only [visitedPosF]
    rw [if_pos hq]
    simp

/-- No scan-visited position is ever classified as data: the scan is strictly
forward and each push's data span starts after its opcode and ends before
the next visited position. -/
theorem visited_not_data (code : List Nat) : ∀ (fuel pc p : Nat),
    visitedPosF code fuel pc p = true → refIsDataF code fuel pc p = false := by
  intro fuel
  induction fuel with
  | zero => intro pc p h; simp [visitedPosF] at h
  | succ fuel ih =>
    intro pc p h
    simp only [visitedPosF] at h
    by_cases hpc : pc < code.length
    · rw [if_pos hpc] at h
      simp only [refIsDataF]
      rw [if_pos hpc]
      by_cases hpush : PUSH1 ≤ code.getD pc 0 ∧ code.getD pc 0 ≤ PUSH32
      · rw [if_pos hpush] at h
        rw [if_pos hpush]
        rcases Bool.or_eq_true_iff.mp h with h1 | h2
        · have hp : p = pc := by simpa using h1
          subst hp
          rw [if_neg (by omega : ¬(p + 1 ≤ p ∧ p ≤ p + (code.getD p 0 - PUSH1 + 1)))]
          exact refIsDataF_lt code fuel _ p (by omega)
        · have hge := visitedPosF_le code fuel _ p h2
          rw [if_neg (by omega : ¬(pc + 1 ≤ p ∧ p ≤ pc + (code.getD pc 0 - PUSH1 + 1)))]
          exact ih _ p h2
      · rw [if_neg hpush] at h
        rw [if_neg hpush]
        rcases Bool.or_eq_true_iff.mp h with h1 | h2
        · have hp : p = pc := by simpa using h1
          subst hp
          exact refIsDataF_lt code fuel _ p (by omega)
        · exact ih _ p h2
    · rw [if_neg hpc] at h
      cases h

/-- A push opcode at a scan-visited position `p` makes every offset of its
declared data span `[p+1, p+w]` a reference data offset. -/
theorem visited_push_data (code : List Nat) : ∀ (fuel pc p : Nat),
    visitedPosF code fuel pc p = true →
    PUSH1 ≤ code.getD p 0 → code.getD p 0 ≤ PUSH32 →
    ∀ j, p + 1 ≤ j → j ≤ p + (code.getD p 0 - PUSH1 + 1) →
    refIsDataF code fuel pc j = true := by
  intro fuel
  induction fuel with
  | zero => intro pc p h; simp [visitedPosF] at h
  | succ fuel ih =>
    intro pc p h hp1 hp2 j hj1 hj2
    simp only [visitedPosF] at h
    by_cases hpc : pc < code.length
    · rw [if_pos hpc] at h
      simp only [refIsDataF]
      rw [if_pos hpc]
      by_cases hpush : PUSH1 ≤ code.getD pc 0 ∧ code.getD pc 0 ≤ PUSH32
      · rw [if_pos hpush] at h
        rw [if_pos hpush]
        rcases Bool.or_eq_true_iff.mp h with h1 | h2
        · have hp : p = pc := by simpa using h1
          subst hp
          rw [if_pos (by omega : p + 1 ≤ j ∧ j ≤ p + (code.getD p 0 - PUSH1 + 1))]
        · by_cases hr : pc + 1 ≤ j ∧ j ≤ pc + (code.getD pc 0 - PUSH1 + 1)
          · rw [if_pos hr]
          · rw [if_neg hr]
            exact ih _ p h2 hp1 hp2 j hj1 hj2
      · rw [if_neg hpush] at h
        rw [if_neg hpush]
        rcases Bool.or_eq_true_iff.mp h with h1 | h2
        · have hp : p = pc := by simpa using h1
          subst hp
          exact absurd ⟨hp1, hp2⟩ hpush
        · exact ih _ p h2 hp1 hp2 j hj1 hj2
    · rw [if_neg hpc] at h
      cases h

/-- The offset right after the data span of a push at a scan-visited position
is not a reference data offset (it is the next scan position). -/
theorem visited_push_next (code : List Nat) : ∀ (fuel pc p : Nat),
    visitedPosF code fuel pc p = true →
    PUSH1 ≤ code.getD p 0 → code.getD p 0 ≤ PUSH32 →
    refIsDataF code fuel pc (p + (code.getD p 0 - PUSH1 + 1) + 1) = false := by
  intro fuel
  induction fuel with
  | zero => intro pc p h; simp [visitedPosF] at h
  | succ fuel ih =>
    intro pc p h hp1 hp2
    simp only [visitedPosF] at h
    by_cases hpc : pc < code.length
    · rw [if_pos hpc] at h
      simp only [refIsDataF]
      rw [if_pos hpc]
      by_cases hpush : PUSH1 ≤ code.getD pc 0 ∧ code.getD pc 0 ≤ PUSH32
      · rw [if_pos hpush] at h
        rw [if_pos hpush]
        rcases Bool.or_eq_true_iff.mp h with h1 | h2
        · have hp : p = pc := by simpa using h1
          subst hp
          rw [if_neg (by omega : ¬(p + 1 ≤ p + (code.getD p 0 - PUSH1 + 1) + 1
            ∧ p + (code.getD p 0 - PUSH1 + 1) + 1 ≤ p + (code.getD p 0 - PUSH1 + 1)))]
          exact refIsDataF_self code fuel _
        · have hge := visitedPosF_le code fuel _ p h2
          rw [if_neg (by omega : ¬(pc + 1 ≤ p + (code.getD p 0 - PUSH1 + 1) + 1
            ∧ p + (code.getD p 0 - PUSH1 + 1) + 1
              ≤ pc + (code.getD pc 0 - PUSH1 + 1)))]
          exact ih _ p h2 hp1 hp2
      · rw [if_neg hpush] at h
        rw [if_neg hpush]
        rcases Bool.or_eq_true_iff.mp h with h1 | h2
        · have hp : p = pc := by simpa using h1
          subst hp
          exact absurd ⟨hp1, hp2⟩ hpush
        · exact ih _ p h2 hp1 hp2
    · rw [if_neg hpc] at h
      cases h

/-- The scan position following a visited position (opcode advance for a
non-push, data-span skip for a push) is itself visited, provided it is inside
the code and the budget covers the whole remaining scan. -/
theorem visited_step (code : List Nat) : ∀ (fuel pc p : Nat),
    visitedPosF code fuel pc p = true →
    code.length - pc ≤ fuel →
    ∀ q, q = (if PUSH1 ≤ code.getD p 0 ∧ code.getD p 0 ≤ PUSH32
        then p + (code.getD p 0 - PUSH1 + 1) + 1 else p + 1) →
    q < code.length → visitedPosF code fuel pc q = true := by
  intro fuel
  induction fuel with
  | zero => intro pc p h; simp [visitedPosF] at h
  | succ fuel ih =>
    intro pc p h hf q hq hqlen
    simp only [visitedPosF] at h
    by_cases hpc : pc < code.length
    · rw [if_pos hpc] at h
      simp only [visitedPosF]
      rw [if_pos hpc]
      by_cases hpush : PUSH1 ≤ code.getD pc 0 ∧ code.getD pc 0 ≤ PUSH32
      · rw [if_pos hpush] at h
        rw [if_pos hpush]
        rcases Bool.or_eq_true_iff.mp h with h1 | h2
        · have hp : p = pc := by simpa using h1
          subst hp
          rw [if_pos hpush] at hq
          have hv : visitedPosF code fuel (p + (code.getD p 0 - PUSH1 + 1) + 1) q
              = true := by
            rw [hq]
            exact visitedPosF_self code fuel _ (hq ▸ hqlen) (by omega)
          rw [hv]
          simp
        · have hv := ih _ p h2 (by
            have := visitedPosF_le code fuel _ p h2
            omega) q hq hqlen
          rw [hv]
          simp
      · rw [if_neg hpush] at h
        rw [if_neg hpush]
        rcases Bool.or_eq_true_iff.mp h with h1 | h2
        · have hp : p = pc := by simpa using h1
          subst hp
          rw [if_neg hpush] at hq
          have hv : visitedPosF code fuel (p + 1) q = true := by
            rw [hq]
            exact visitedPosF_self code fuel _ (hq ▸ hqlen) (by omega)
          rw [hv]
          simp
        · have hv := ih _ p h2 (by
            have := visitedPosF_le code fuel _ p h2
            omega) q hq hqlen
          rw [hv]
          simp
    · rw [if_neg hpc] at h
      cases h

/-- Reference-scan congruence: two codes of equal length that agree at every
offset the first one's scan does not classify as data produce identical
reference classifications (the scan only ever reads bytes at visited, i.e.
non-data, offsets). -/
theorem refIsDataF_congr (code1 code2 : List Nat)
    (hlen : code1.length = code2.length)
    (hagree : ∀ i, i < code1.length → refIsData code1 i = false →
      code1.getD i 0 = code2.getD i 0) :
    ∀ (fuel pc : Nat),
      (code1.length ≤ pc ∨ visitedPosF code1 code1.length 0 pc = true) →
      code1.length - pc ≤ fuel →
      ∀ j, refIsDataF code1 fuel pc j = refIsDataF code2 fuel pc j := by
  intro fuel
  induction fuel with
  | zero => intro pc hv hf j; simp [refIsDataF]
  | succ fuel ih =>
    intro pc hv hf j
    by_cases hpc : pc < code1.length
    · have hvv : visitedPosF code1 code1.length 0 pc = true := by
        rcases hv with h | h
        · omega
        · exact h
      have hnd : refIsData code1 pc = false :=
        visited_not_data code1 code1.length 0 pc hvv
      have heq := hagree pc hpc hnd
      have hpc2 : pc < code2.length := by omega
      simp only [refIsDataF]
      rw [if_pos hpc, if_pos hpc2, ← heq]
      by_cases hpush : PUSH1 ≤ code1.getD pc 0 ∧ code1.getD pc 0 ≤ PUSH32
      · rw [if_pos hpush, if_pos hpush]
        by_cases hr : pc + 1 ≤ j ∧ j ≤ pc + (code1.getD pc 0 - PUSH1 + 1)
        · rw [if_pos hr, if_pos hr]
        · rw [if_neg hr, if_neg hr]
          apply ih
          · by_cases hnext : pc + (code1.getD pc 0 - PUSH1 + 1) + 1 < code1.length
            · refine Or.inr (visited_step code1 code1.length 0 pc hvv (by omega) _ ?_ hnext)
              rw [if_pos hpush]
            · exact Or.inl (by omega)
          · omega
      · rw [if_neg hpush, if_neg hpush]
        apply ih
        · by_cases hnext : pc + 1 < code1.length
          · refine Or.inr (visited_step code1 code1.length 0 pc hvv (by omega) _ ?_ hnext)
            rw [if_neg hpush]
          · exact Or.inl (by omega)
        · omega
    · have hpc2 : ¬(pc < code2.length) := by omega
      simp only [refIsDataF]
      rw [if_neg hpc, if_neg hpc2]

/-- The classification depends only on bytes at non-data offsets: two codes
of equal length that differ only inside push-immediate spans classify
identically (bit-identical output vectors). -/
theorem codeBitmap_congr (code1 code2 : List Nat)
    (h1 : byteList code1) (h2 : byteList code2)
    (hlen : code1.length = code2.length)
    (hagree : ∀ i, i < code1.length → refIsData code1 i = false →
      code1.getD i 0 = code2.getD i 0) :
    codeBitmap code1 = codeBitmap code2 := by
  obtain ⟨f1, e1, hl1, hb1, hc1⟩ := codeBitmap_spec code1 h1
  obtain ⟨f2, e2, hl2, hb2, hc2⟩ := codeBitmap_spec code2 h2
  rw [e1, e2]
  congr 1
  apply bitmap_ext f1 f2 hb1 hb2 (by omega)
  intro j
  rw [hc1 j, hc2 j]
  unfold refIsData
  rw [← hlen]
  apply refIsDataF_congr code1 code2 hlen hagree code1.length 0 ?_ (by omega) j
  rcases Nat.eq_zero_or_pos code1.length with hz | hpos
  · exact Or.inl (by omega)
  · exact Or.inr (visitedPosF_self code1 code1.length 0 (by omega) (by omega))

/-! ### The naive one-bit-at-a-time reference scan -/

theorem getD_set_self' {α : Type} (l : List α) (i : Nat) (v d : α)
    (h : i < l.length) : (l.set i v).getD i d = v := by
  simp [List.getD_eq_getElem?_getD, List.getElem?_set_self h]

theorem getD_set_ne' {α : Type} (l : List α) {i m : Nat} (v d : α) (h : m ≠ i) :
    (l.set i v).getD m d = l.getD m d := by
  simp [List.getD_eq_getElem?_getD, List.getElem?_set_ne (Ne.symm h)]

theorem naiveMarkRange_length : ∀ (w : Nat) (marked : List Bool) (pos : Nat),
    (naiveMarkRange marked pos w).length = marked.length := by
  intro w
  induction w with
  | zero => intro marked pos; simp [naiveMarkRange]
  | succ w ih =>
    intro marked pos
    simp only [naiveMarkRange]
    rw [ih]
    simp

theorem naiveMarkRange_getD : ∀ (w : Nat) (marked : List Bool) (pos j : Nat),
    (naiveMarkRange marked pos w).getD j false
      = (marked.getD j false || decide (pos ≤ j ∧ j < pos + w ∧ j < marked.length)) := by
  intro w
  induction w with
  | zero =>
    intro marked pos j
    simp only [naiveMarkRange]
    have : ¬(pos ≤ j ∧ j < pos + 0 ∧ j < marked.length) := by omega
    simp [this]
    intros
    omega
  | succ w ih =>
    intro marked pos j
    simp only [naiveMarkRange]
    rw [ih, List.length_set]
    by_cases hj : j = pos
    · subst hj
      by_cases hl : j < marked.length
      · rw [getD_set_self' _ _ _ _ hl]
        have : (j ≤ j ∧ j < j + (w + 1) ∧ j < marked.length) := by omega
        simp [this]
      · rw [List.set_eq_of_length_le (by omega)]
        have h1 : ¬(j + 1 ≤ j ∧ j < j + 1 + w ∧ j < marked.length) := by omega
        have h2 : ¬(j ≤ j ∧ j < j + (w + 1) ∧ j < marked.length) := by omega
        simp [h1, h2]
        intros
        omega
    · rw [getD_set_ne' _ _ _ hj]
      congr 1
      rw [decide_eq_decide]
      omega

theorem naiveScanF_getD (code : List Nat) : ∀ (fuel : Nat) (marked : List Bool) (pc : Nat),
    marked.length = code.length →
    ∀ j, j < code.length →
    (naiveScanF code fuel marked pc).getD j false
      = (marked.getD j false || refIsDataF code fuel pc j) := by
  intro fuel
  induction fuel with
  | zero =>
    intro marked pc hlen j hj
    simp [naiveScanF, refIsDataF]
  | succ fuel ih =>
    intro marked pc hlen j hj
    simp only [naiveScanF, refIsDataF]
    by_cases hpc : pc < code.length
    · rw [if_pos hpc, if_pos hpc]
      by_cases hpush : PUSH1 ≤ code.getD pc 0 ∧ code.getD pc 0 ≤ PUSH32
      · rw [if_pos hpush, if_pos hpush]
        rw [ih _ _ (by rw [naiveMarkRange_length, hlen]) j hj]
        rw [naiveMarkRange_getD, hlen]
        by_cases hr : pc + 1 ≤ j ∧ j ≤ pc + (code.getD pc 0 - PUSH1 + 1)
        · rw [if_pos hr]
          have hdec : decide (pc + 1 ≤ j ∧ j < pc + 1 + (code.getD pc 0 - PUSH1 + 1)
              ∧ j < code.length) = true := by
            rw [decide_eq_true_eq]
            omega
          rw [hdec]
          simp
        · rw [if_neg hr]
          have hdec : decide (pc + 1 ≤ j ∧ j < pc + 1 + (code.getD pc 0 - PUSH1 + 1)
              ∧ j < code.length) = false := by
            rw [decide_eq_false_iff_not]
            omega
          rw [hdec]
          simp
      · rw [if_neg hpush, if_neg hpush]
        exact ih marked (pc + 1) hlen j hj
    · rw [if_neg hpc, if_neg hpc]
      simp

/-! ### The claims -/

/-- C1: for every bytecode input, the optimized segmented marking (set16 for
16-bit chunks, set8 for 8-bit chunks, masked setN/set1 for a 1..7-bit
remainder) produces a bit vector that agrees, at every offset below
`len(code)`, with the naive reference scan that marks each of the `w` data
bits of a push one at a time. -/
theorem claim_C1 (code : List Nat) (hcode : byteList code) :
    ∃ bits, codeBitmap code = some bits ∧
      ∀ i, i < code.length → dataBit bits i = (naiveScan code).getD i false := by
  obtain ⟨bits, e, hl, hb, hc⟩ := codeBitmap_spec code hcode
  refine ⟨bits, e, fun i hi => ?_⟩
  rw [hc i]
  unfold naiveScan
  rw [naiveScanF_getD code code.length (List.replicate code.length false) 0 (by simp) i hi]
  have hrep : (List.replicate code.length false).getD i false = false := by
    rw [List.getD_eq_getElem?_getD, List.getElem?_replicate]
    split <;> rfl
  rw [hrep]
  simp [refIsData]

/-- C1 witness: concrete evaluation on `[PUSH1, 0x5b, JUMPDEST]`. -/
theorem claim_C1_witness :
    byteList [96, 91, 91] ∧
    ∃ bits, codeBitmap [96, 91, 91] = some bits ∧
      ∀ i, i < ([96, 91, 91] : List Nat).length →
        dataBit bits i = (naiveScan [96, 91, 91]).getD i false :=
  ⟨by decide, claim_C1 [96, 91, 91] (by decide)⟩

/-- C2: for every bytecode input — including one whose final push's declared
span extends past `len(code)` — the whole classification runs with every
write inside the allocated `len(code)/8+1+4`-byte array (a successful `some`
result is exactly the absence of any out-of-bounds access in this model),
and every bit at an offset below `len(code)` is correctly classified. -/
theorem claim_C2 (code : List Nat) (hcode : byteList code) :
    ∃ bits, codeBitmap code = some bits ∧
      bits.length = code.length / 8 + 1 + 4 ∧
      ∀ i, i < code.length → dataBit bits i = refIsData code i := by
  obtain ⟨bits, e, hl, hb, hc⟩ := codeBitmap_spec code hcode
  exact ⟨bits, e, hl, fun i _ => hc i⟩

/-- C2 witness: a lone PUSH32 whose 32-byte span lies entirely past the end
of the 1-byte code. -/
theorem claim_C2_witness :
    byteList [127] ∧
    ∃ bits, codeBitmap [127] = some bits ∧
      bits.length = ([127] : List Nat).length / 8 + 1 + 4 ∧
      ∀ i, i < ([127] : List Nat).length → dataBit bits i = refIsData [127] i :=
  ⟨by decide, claim_C2 [127] (by decide)⟩

/-- C7: on non-empty code, offset 0 is always an instruction start: the scan
treats the first byte as an opcode and every data mark starts at `pc+1 ≥ 1`. -/
theorem claim_C7 (code : List Nat) (hcode : byteList code) (_hne : code ≠ []) :
    ∃ bits, codeBitmap code = some bits ∧ codeSegment bits 0 = true := by
  obtain ⟨bits, e, hl, hb, hc⟩ := codeBitmap_spec code hcode
  refine ⟨bits, e, ?_⟩
  rw [codeSegment_eq_not_dataBit, hc 0]
  unfold refIsData
  rw [refIsDataF_self code code.length 0]
  rfl

/-- C7 witness: single-JUMPDEST code. -/
theorem claim_C7_witness :
    byteList [91] ∧ ([91] : List Nat) ≠ [] ∧
    ∃ bits, codeBitmap [91] = some bits ∧ codeSegment bits 0 = true :=
  ⟨by decide, by decide, claim_C7 [91] (by decide) (by decide)⟩

/-- C8: the backing storage is `len(code)/8 + 1 + 4` bytes, i.e. at least
`len(code)/8` plus `maximum push width / 8 + 1 = 32/8 + 1 = 5` bytes. -/
theorem claim_C8 (code : List Nat) (hcode : byteList code) :
    ∃ bits, codeBitmap code = some bits ∧
      bits.length = code.length / 8 + 1 + 4 ∧
      code.length / 8 + (32 / 8 + 1) ≤ bits.length := by
  obtain ⟨bits, e, hl, _, _⟩ := codeBitmap_spec code hcode
  exact ⟨bits, e, hl, by omega⟩

/-- C8 witness: two-byte code. -/
theorem claim_C8_witness :
    byteList [96, 0] ∧
    ∃ bits, codeBitmap [96, 0] = some bits ∧
      bits.length = ([96, 0] : List Nat).length / 8 + 1 + 4 ∧
      ([96, 0] : List Nat).length / 8 + (32 / 8 + 1) ≤ bits.length :=
  ⟨by decide, claim_C8 [96, 0] (by decide)⟩

/-- C9: `codeBitmap` is a pure function of the code bytes: it is
deterministic (bit-identical results on identical inputs — in this
side-effect-free model, definitional), and each call starts from a freshly
allocated zeroed backing array of `len(code)/8+1+4` bytes. -/
theorem claim_C9 (code : List Nat) :
    codeBitmap code = codeBitmap code ∧
    codeBitmap code
      = codeBitmapInternal code (List.replicate (code.length / 8 + 1 + 4) 0) ∧
    ∀ code' : List Nat, code = code' → codeBitmap code = codeBitmap code' :=
  ⟨rfl, rfl, fun _ h => by rw [h]⟩

/-- C9 witness: repeated-call determinism at a concrete input. -/
theorem claim_C9_witness : codeBitmap [96, 1] = codeBitmap [96, 1] :=
  (claim_C9 [96, 1]).2.2 [96, 1] rfl

/-- C10: the scan terminates within `len(code)` loop iterations (the loop,
given an iteration budget of exactly `len(code)`, completes), because every
iteration strictly increases `pc` — by `w + 1` for a push of width `w`
(C4's exact advance) and by 1 otherwise. -/
theorem claim_C10 :
    (∀ code : List Nat, byteList code →
      ∃ v, codeBitmapLoop code code.length
        (List.replicate (code.length / 8 + 1 + 4) 0) 0 = some v) ∧
    (∀ (code bits : List Nat) (pc : Nat) (bits' : List Nat) (pc' : Nat),
      scanStep code bits pc = some (bits', pc') → pc < pc') := by
  constructor
  · intro code hcode
    obtain ⟨v, e, _⟩ := codeBitmap_spec code hcode
    exact ⟨v, e⟩
  · intro code bits pc bits' pc' h
    exact scanStep_pc_lt code bits pc bits' pc' h

/-- C10 witness: the budget `len(code)` suffices on a concrete input, and a
concrete iteration strictly advances `pc`. -/
theorem claim_C10_witness :
    (∃ v, codeBitmapLoop [96, 0] 2 (List.replicate 5 0) 0 = some v) ∧ (0 : Nat) < 2 :=
  ⟨claim_C10.1 [96, 0] (by decide),
   claim_C10.2 [96, 0] (List.replicate 5 0) 0 [2, 0, 0, 0, 0] 2 (by decide)⟩

/-- C3: the classification is independent of the byte values inside
push-immediate spans — two equal-length codes that agree at every non-data
offset produce identical bit vectors — and, in particular, every offset
inside the span of a PUSH32 at a scan-visited position is classified as data
regardless of the byte stored there (even the JUMPDEST value). -/
theorem claim_C3 :
    (∀ code1 code2 : List Nat, byteList code1 → byteList code2 →
      code1.length = code2.length →
      (∀ i, i < code1.length → refIsData code1 i = false →
        code1.getD i 0 = code2.getD i 0) →
      codeBitmap code1 = codeBitmap code2) ∧
    (∀ (code : List Nat) (pc : Nat), byteList code → visitedPos code pc = true →
      code.getD pc 0 = PUSH32 →
      ∀ j, pc + 1 ≤ j → j ≤ pc + 32 →
      ∃ bits, codeBitmap code = some bits ∧ dataBit bits j = true) := by
  constructor
  · intro code1 code2 h1 h2 hlen hagree
    exact codeBitmap_congr code1 code2 h1 h2 hlen hagree
  · intro code pc hcode hv heq j hj1 hj2
    obtain ⟨bits, e, hl, hb, hc⟩ := codeBitmap_spec code hcode
    refine ⟨bits, e, ?_⟩
    rw [hc j]
    have hw : code.getD pc 0 - PUSH1 + 1 = 32 := by
      rw [heq]
      decide
    unfold refIsData
    exact visited_push_data code code.length 0 pc hv (by rw [heq]; decide)
      (by rw [heq]) j hj1 (by omega)

/-- C3 witness: two 34-byte codes `PUSH32 <32 bytes> JUMPDEST` differing only
inside the push span (one carries a JUMPDEST byte there) classify
identically, and the offset holding the JUMPDEST byte value is data. -/
theorem claim_C3_witness :
    (codeBitmap (127 :: List.replicate 33 91)
      = codeBitmap (127 :: (List.replicate 32 0 ++ [91]))) ∧
    ∃ bits, codeBitmap (127 :: List.replicate 33 91) = some bits ∧
      dataBit bits 17 = true :=
  ⟨claim_C3.1 (127 :: List.replicate 33 91) (127 :: (List.replicate 32 0 ++ [91]))
      (by decide) (by decide) (by decide) (by decide),
   claim_C3.2 (127 :: List.replicate 33 91) 0 (by decide) (by decide) (by decide)
      17 (by decide) (by decide)⟩

/-- C4: one scan iteration at a byte-valued opcode: a push-family byte
(`PUSH1 ≤ op ≤ PUSH32`) marks exactly the `w = op - PUSH1 + 1 ∈ [1, 32]`
bits `[pc+1, pc+w]` and advances `pc` by `w + 1`; any other byte value —
rejected by the source through the signed `int8` comparison, which is also
what discards every value above `PUSH32` — marks nothing and advances `pc`
by exactly 1. -/
theorem claim_C4 (code bits : List Nat) (pc : Nat)
    (hcode : byteList code) (hpc : pc < code.length)
    (hlen : bits.length = code.length / 8 + 1 + 4)
    (hz : zeroFrom bits (pc + 1)) :
    ((PUSH1 ≤ code.getD pc 0 ∧ code.getD pc 0 ≤ PUSH32) →
      ∃ bits', scanStep code bits pc
          = some (bits', pc + (code.getD pc 0 - PUSH1 + 1) + 1) ∧
        (1 ≤ code.getD pc 0 - PUSH1 + 1 ∧ code.getD pc 0 - PUSH1 + 1 ≤ 32) ∧
        ∀ j, dataBit bits' j = (dataBit bits j
          || decide (pc + 1 ≤ j ∧ j ≤ pc + (code.getD pc 0 - PUSH1 + 1)))) ∧
    (¬(PUSH1 ≤ code.getD pc 0 ∧ code.getD pc 0 ≤ PUSH32) →
      scanStep code bits pc = some (bits, pc + 1)) ∧
    ((int8 (code.getD pc 0) < int8 PUSH1)
      ↔ ¬(PUSH1 ≤ code.getD pc 0 ∧ code.getD pc 0 ≤ PUSH32)) := by
  have hopeq : code.getD pc 0 = code[pc] := by
    rw [List.getD_eq_getElem?_getD, List.getElem?_eq_getElem hpc]
    rfl
  have hop256 : code.getD pc 0 < 256 := by
    rw [hopeq]
    exact hcode _ (List.getElem_mem hpc)
  refine ⟨fun hpush => ?_, fun hnpush => ?_, int8_lt_push1_iff _ hop256⟩
  · obtain ⟨bits', e, hl, hbl, hc⟩ :=
      scanStep_push code bits pc hpush.1 hpush.2 hpc hlen hz
    rw [(by omega : pc + 1 + (code.getD pc 0 - PUSH1 + 1)
      = pc + (code.getD pc 0 - PUSH1 + 1) + 1)] at e
    refine ⟨bits', e, ?_, fun j => ?_⟩
    · have h96 : (96 : Nat) ≤ code.getD pc 0 := hpush.1
      have h127 : code.getD pc 0 ≤ 127 := hpush.2
      show 1 ≤ code.getD pc 0 - 96 + 1 ∧ code.getD pc 0 - 96 + 1 ≤ 32
      omega
    · rw [hc j]
      congr 1
      rw [decide_eq_decide]
      omega
  · have hnp : int8 (code.getD pc 0) < int8 PUSH1 :=
      (int8_lt_push1_iff _ hop256).mpr hnpush
    exact scanStep_nonpush code bits pc hnp

/-- C4 witness: a PUSH3 at the start of `[0x62, 0, 0, 0]` (push branch of the
iteration, width 3, cursor advance 4). -/
theorem claim_C4_witness :
    byteList [98, 0, 0, 0] ∧
    ∃ bits', scanStep [98, 0, 0, 0] (List.replicate 5 0) 0
        = some (bits', 0 + (([98, 0, 0, 0] : List Nat).getD 0 0 - PUSH1 + 1) + 1) ∧
      (1 ≤ ([98, 0, 0, 0] : List Nat).getD 0 0 - PUSH1 + 1
        ∧ ([98, 0, 0, 0] : List Nat).getD 0 0 - PUSH1 + 1 ≤ 32) ∧
      ∀ j, dataBit bits' j = (dataBit (List.replicate 5 0) j
        || decide (0 + 1 ≤ j ∧ j ≤ 0 + (([98, 0, 0, 0] : List Nat).getD 0 0 - PUSH1 + 1))) :=
  ⟨by decide,
   (claim_C4 [98, 0, 0, 0] (List.replicate 5 0) 0 (by decide) (by decide) (by decide)
      (fun j _ => dataBit_replicate_zero 5 j)).1 (by decide)⟩

/-- C5: the marked-bit set grows monotonically through every scan iteration
(despite the plain stores inside `setN`/`set8`/`set16`, which only write
zeros at positions the strictly-forward scan has not yet marked), and no
scan-visited offset is ever marked as data in the final bitmap. -/
theorem claim_C5 :
    (∀ (code bits : List Nat) (pc : Nat) (bits' : List Nat) (pc' : Nat),
      byteList code → pc < code.length →
      bits.length = code.length / 8 + 1 + 4 → zeroFrom bits pc →
      scanStep code bits pc = some (bits', pc') →
      ∀ j, dataBit bits j = true → dataBit bits' j = true) ∧
    (∀ (code : List Nat) (i : Nat), byteList code → visitedPos code i = true →
      ∃ bits, codeBitmap code = some bits ∧ dataBit bits i = false) := by
  constructor
  · intro code bits pc bits' pc' hcode hpc hlen hz e j hj
    have hopeq : code.getD pc 0 = code[pc] := by
      rw [List.getD_eq_getElem?_getD, List.getElem?_eq_getElem hpc]
      rfl
    have hop256 : code.getD pc 0 < 256 := by
      rw [hopeq]
      exact hcode _ (List.getElem_mem hpc)
    have hz1 : zeroFrom bits (pc + 1) := fun k hk => hz k (by omega)
    by_cases hpush : PUSH1 ≤ code.getD pc 0 ∧ code.getD pc 0 ≤ PUSH32
    · obtain ⟨bits'', e', hl, hbl, hc⟩ :=
        scanStep_push code bits pc hpush.1 hpush.2 hpc hlen hz1
      have hee := e.symm.trans e'
      simp only [Option.some.injEq, Prod.mk.injEq] at hee
      rw [← hee.1] at hc
      rw [hc j, hj]
      simp
    · have e' := scanStep_nonpush code bits pc
        ((int8_lt_push1_iff _ hop256).mpr hpush)
      have hee := e.symm.trans e'
      simp only [Option.some.injEq, Prod.mk.injEq] at hee
      rw [hee.1]
      exact hj
  · intro code i hcode hv
    obtain ⟨bits, e, hl, hb, hc⟩ := codeBitmap_spec code hcode
    refine ⟨bits, e, ?_⟩
    rw [hc i]
    exact visited_not_data code code.length 0 i hv

/-- C5 witness: the visited offset 2 of `[PUSH1, 0x05, JUMPDEST]` stays
unmarked in the final bitmap. -/
theorem claim_C5_witness :
    byteList [96, 5, 91] ∧ visitedPos [96, 5, 91] 2 = true ∧
    ∃ bits, codeBitmap [96, 5, 91] = some bits ∧ dataBit bits 2 = false :=
  ⟨by decide, by decide, claim_C5.2 [96, 5, 91] 2 (by decide) (by decide)⟩

/-- C6: a push of width `n` at a scan-visited offset `pc` with
`pc + n < len(code)` makes the offsets `pc+1 .. pc+n` data and leaves the bit
at `pc + n + 1` unset, so `codeSegment` (is_instruction_start) holds there. -/
theorem claim_C6 (code : List Nat) (pc : Nat) (hcode : byteList code)
    (hv : visitedPos code pc = true)
    (hp1 : PUSH1 ≤ code.getD pc 0) (hp2 : code.getD pc 0 ≤ PUSH32)
    (_hlt : pc + (code.getD pc 0 - PUSH1 + 1) < code.length) :
    ∃ bits, codeBitmap code = some bits ∧
      (∀ j, pc + 1 ≤ j → j ≤ pc + (code.getD pc 0 - PUSH1 + 1) →
        codeSegment bits j = false) ∧
      codeSegment bits (pc + (code.getD pc 0 - PUSH1 + 1) + 1) = true := by
  obtain ⟨bits, e, hl, hb, hc⟩ := codeBitmap_spec code hcode
  refine ⟨bits, e, fun j hj1 hj2 => ?_, ?_⟩
  · rw [codeSegment_eq_not_dataBit, hc j]
    unfold refIsData
    rw [visited_push_data code code.length 0 pc hv hp1 hp2 j hj1 hj2]
    rfl
  · rw [codeSegment_eq_not_dataBit, hc _]
    unfold refIsData
    rw [visited_push_next code code.length 0 pc hv hp1 hp2]
    rfl

/-- C6 witness: the PUSH1 at offset 0 of `[PUSH1, 0x5b, JUMPDEST]` makes
offset 1 data and offset 2 an instruction start. -/
theorem claim_C6_witness :
    byteList [96, 91, 91] ∧ visitedPos [96, 91, 91] 0 = true ∧
    ∃ bits, codeBitmap [96, 91, 91] = some bits ∧
      (∀ j, 0 + 1 ≤ j → j ≤ 0 + (([96, 91, 91] : List Nat).getD 0 0 - PUSH1 + 1) →
        codeSegment bits j = false) ∧
      codeSegment bits (0 + (([96, 91, 91] : List Nat).getD 0 0 - PUSH1 + 1) + 1)
        = true :=
  ⟨by decide, by decide,
   claim_C6 [96, 91, 91] 0 (by decide) (by decide) (by decide) (by decide) (by decide)⟩
